import Mathlib

/-!
Verification development for the Smart-Favorites bookmark engine
(backend/app/services: bookmark_parser.py, ai_analyzer.py, vector_store.py,
rag_engine.py).

The Python services are shallowly embedded: pure helper functions become Lean
functions on `String`/`List Char`/`Int`, the ChromaDB-backed vector store
becomes explicit state passing over an association list keyed by bookmark id,
and fallible calls to external capabilities (the embedding store, the LLM)
become `Except` values.  Python `int` arithmetic is `Int`/`Nat` (arbitrary
precision, as in CPython); `datetime` values are modelled by their Unix epoch
second count.  Strings are modelled over their unicode code points; the
Python string operations used by the code (`lower`, `strip`, `split`,
`rstrip('/')`, `replace('www.', '')`) are reimplemented character by
character, restricted to ASCII case mapping.
-/

namespace SmartFav

/-! ## Python string primitives -/

/-- The whitespace characters recognised by Python's `str.split()` /
`str.strip()` (ASCII subset). -/
def pyIsSpace (c : Char) : Bool :=
  c = ' ' || c = '\t' || c = '\n' || c = '\x0d' || c = '\x0b' || c = '\x0c'

/-- Python `str.lower()` (ASCII case mapping). -/
def pyLower (s : String) : String := String.mk (s.toList.map Char.toLower)

/-- Python `str.split(sep)` for a one-character separator, keeping empty
parts (`"a,,b" -> ["a", "", "b"]`, `"" -> [""]`). -/
def splitCharAux (c : Char) (l : List Char) : List (List Char) :=
  l.foldr
    (fun x acc =>
      match acc with
      | w :: ws => if x = c then [] :: w :: ws else (x :: w) :: ws
      | [] => [[x]])
    [[]]

/-- Python `str.split(sep)` for a one-character separator. -/
def pySplitChar (c : Char) (s : String) : List String :=
  (splitCharAux c s.toList).map String.mk

/-- Python slicing `s[:n]` by code points. -/
def pyTake (s : String) (n : Nat) : String := String.mk (s.toList.take n)

/-- Python `str.strip()` on a character list: drop leading and trailing
whitespace. -/
def pyStripList (l : List Char) : List Char :=
  ((l.dropWhile pyIsSpace).reverse.dropWhile pyIsSpace).reverse

/-- Python `str.strip()`. -/
def pyStrip (s : String) : String := String.mk (pyStripList s.toList)

/-- Python `str.strip('/')` on a character list. -/
def stripSlashList (l : List Char) : List Char :=
  ((l.dropWhile (· = '/')).reverse.dropWhile (· = '/')).reverse

/-- Python `str.rstrip('/')` on a character list: drop every trailing `/`. -/
def rstripSlashList (l : List Char) : List Char :=
  (l.reverse.dropWhile (· = '/')).reverse

/-- Python `str.split()` (split on whitespace runs, dropping empty words). -/
def pySplitWs (l : List Char) : List (List Char) :=
  (l.foldr
    (fun c acc =>
      if pyIsSpace c then [] :: acc
      else
        match acc with
        | [] => [[c]]
        | w :: ws => (c :: w) :: ws)
    []).filter (· ≠ [])

/-! ## Model of `urllib.parse.urlparse`

Only the components the services read (`netloc` and `path`) are modelled.
The query (`?...`) and fragment (`#...`) parts are split off exactly as in
CPython's `urlsplit`; the legacy `params` (`;`) split of `urlparse` is not
modelled (none of the URLs considered contain `;`). -/

/-- Valid non-initial characters of a URL scheme (CPython `scheme_chars`). -/
def isSchemeChar (c : Char) : Bool :=
  c.isAlphanum || c = '+' || c = '-' || c = '.'

/-- Split a character list at the first occurrence of `c`; returns the part
before and, when `c` occurs, the part after it. -/
def breakAtChar (c : Char) : List Char → List Char × Option (List Char)
  | [] => ([], none)
  | x :: xs =>
    if x = c then ([], some xs)
    else
      let r := breakAtChar c xs
      (x :: r.1, r.2)

structure UrlParts where
  scheme : String
  netloc : String
  path : String
deriving DecidableEq, Repr

/-- Model of `urllib.parse.urlparse` restricted to scheme, netloc and path:
a scheme is split off before the first `:` when it starts with a letter and
continues with scheme characters; a netloc follows `//` up to the next
`/`, `?` or `#`; the path is what remains before the first `?` or `#`. -/
def pyUrlparse (url : String) : UrlParts :=
  let l := url.toList
  let schemeSplit :=
    match breakAtChar ':' l with
    | (before, some after) =>
      match before with
      | c :: rest =>
        if c.isAlpha && rest.all isSchemeChar then (String.mk before, after)
        else ("", l)
      | [] => ("", l)
    | (_, none) => ("", l)
  let rest := schemeSplit.2
  let netlocSplit :=
    match rest with
    | '/' :: '/' :: r =>
      let nl := r.takeWhile (fun c => ¬(c = '/' ∨ c = '?' ∨ c = '#'))
      (nl, r.drop nl.length)
    | r => ([], r)
  let path := netlocSplit.2.takeWhile (fun c => ¬(c = '?' ∨ c = '#'))
  ⟨schemeSplit.1, String.mk netlocSplit.1, String.mk path⟩

/-- Python `netloc.replace('www.', '')`: remove every (leftmost-first,
non-overlapping) occurrence of the substring `www.`. -/
def stripWwwAll : List Char → List Char
  | 'w' :: 'w' :: 'w' :: '.' :: rest => stripWwwAll rest
  | c :: rest => c :: stripWwwAll rest
  | [] => []

/-- `AIAnalyzer._normalize_url`: lower-case the URL, parse it, remove every
occurrence of `www.` from the netloc, strip trailing slashes from the path,
and concatenate netloc and path.  (The `try`/`except` fallback is not
reachable in this model: the modelled `urlparse` is total.) -/
def normalizeUrl (url : String) : String :=
  if url = "" then ""
  else
    let parsed := pyUrlparse (pyLower url)
    let netloc := String.mk (stripWwwAll parsed.netloc.toList)
    let path := String.mk (rstripSlashList parsed.path.toList)
    netloc ++ path

/-! ## Model of `AIAnalyzer._normalize_title`

The Python code is `re.sub(r'\s*[-|].*$', '', title)` followed by
`' '.join(title.lower().split())`.  The regex is modelled by its leftmost
match: position `i` begins a match exactly when the first non-whitespace
character at or after `i` exists and is `-` or `|`. -/

def isDashBar (c : Char) : Bool := c = '-' || c = '|'

/-- Does `\s*[-|].*$` match starting at the head of `l`? -/
def dashMatchHere (l : List Char) : Bool :=
  match l.dropWhile pyIsSpace with
  | c :: _ => isDashBar c
  | [] => false

/-- Index of the leftmost match of `\s*[-|].*$` in `l`, if any. -/
def leftmostDashMatch : List Char → Option Nat
  | [] => none
  | c :: rest =>
    if dashMatchHere (c :: rest) then some 0
    else (leftmostDashMatch rest).map (· + 1)

/-- `re.sub(r'\s*[-|].*$', '', ·)` on a character list. -/
def reSubDashSuffix (l : List Char) : List Char :=
  match leftmostDashMatch l with
  | none => l
  | some i => l.take i

/-- `AIAnalyzer._normalize_title`. -/
def normalizeTitle (title : String) : String :=
  if title = "" then ""
  else
    let stripped := (reSubDashSuffix title.toList).map Char.toLower
    String.intercalate " " ((pySplitWs stripped).map String.mk)

/-! ## MD5 (`hashlib.md5`)

`BookmarkParser._parse_bookmark` derives the bookmark id as
`hashlib.md5(url.encode()).hexdigest()[:16]`.  MD5 is implemented here from
RFC 1321 over byte lists, with 32-bit words as `Nat` reduced `% 2^32`. -/

/-- `2^32`. -/
def m32 : Nat := 4294967296

/-- 32-bit bitwise complement (for arguments `< 2^32`). -/
def not32 (x : Nat) : Nat := x ^^^ 4294967295

/-- 32-bit left rotation. -/
def rotl32 (x s : Nat) : Nat := ((x <<< s) % m32) ||| (x >>> (32 - s))

/-- The 64 MD5 sine-derived constants `K[i] = floor(2^32 * |sin(i+1)|)`. -/
def md5K : List Nat :=
  [0xd76aa478, 0xe8c7b756, 0x242070db, 0xc1bdceee,
   0xf57c0faf, 0x4787c62a, 0xa8304613, 0xfd469501,
   0x698098d8, 0x8b44f7af, 0xffff5bb1, 0x895cd7be,
   0x6b901122, 0xfd987193, 0xa679438e, 0x49b40821,
   0xf61e2562, 0xc040b340, 0x265e5a51, 0xe9b6c7aa,
   0xd62f105d, 0x02441453, 0xd8a1e681, 0xe7d3fbc8,
   0x21e1cde6, 0xc33707d6, 0xf4d50d87, 0x455a14ed,
   0xa9e3e905, 0xfcefa3f8, 0x676f02d9, 0x8d2a4c8a,
   0xfffa3942, 0x8771f681, 0x6d9d6122, 0xfde5380c,
   0xa4beea44, 0x4bdecfa9, 0xf6bb4b60, 0xbebfbc70,
   0x289b7ec6, 0xeaa127fa, 0xd4ef3085, 0x04881d05,
   0xd9d4d039, 0xe6db99e5, 0x1fa27cf8, 0xc4ac5665,
   0xf4292244, 0x432aff97, 0xab9423a7, 0xfc93a039,
   0x655b59c3, 0x8f0ccc92, 0xffeff47d, 0x85845dd1,
   0x6fa87e4f, 0xfe2ce6e0, 0xa3014314, 0x4e0811a1,
   0xf7537e82, 0xbd3af235, 0x2ad7d2bb, 0xeb86d391]

/-- The 64 MD5 per-round left-rotation amounts. -/
def md5S : List Nat :=
  [7, 12, 17, 22, 7, 12, 17, 22, 7, 12, 17, 22, 7, 12, 17, 22,
   5, 9, 14, 20, 5, 9, 14, 20, 5, 9, 14, 20, 5, 9, 14, 20,
   4, 11, 16, 23, 4, 11, 16, 23, 4, 11, 16, 23, 4, 11, 16, 23,
   6, 10, 15, 21, 6, 10, 15, 21, 6, 10, 15, 21, 6, 10, 15, 21]

structure MD5State where
  a : Nat
  b : Nat
  c : Nat
  d : Nat
deriving DecidableEq, Repr

/-- Round function and message-word index for round `i`. -/
def md5Mix (i b c d : Nat) : Nat × Nat :=
  if i < 16 then ((b &&& c) ||| (not32 b &&& d), i % 16)
  else if i < 32 then ((d &&& b) ||| (not32 d &&& c), (5 * i + 1) % 16)
  else if i < 48 then (b ^^^ c ^^^ d, (3 * i + 5) % 16)
  else (c ^^^ (b ||| not32 d), (7 * i) % 16)

/-- One MD5 round. -/
def md5Step (m : List Nat) (st : MD5State) (i : Nat) : MD5State :=
  let fg := md5Mix i st.b st.c st.d
  let f := (fg.1 + st.a + md5K.getD i 0 + m.getD fg.2 0) % m32
  ⟨st.d, (st.b + rotl32 f (md5S.getD i 0)) % m32, st.b, st.c⟩

/-- Little-endian 32-bit words from a byte list. -/
def bytesToWordsLE : List Nat → List Nat
  | b0 :: b1 :: b2 :: b3 :: rest =>
    (b0 + 256 * b1 + 65536 * b2 + 16777216 * b3) :: bytesToWordsLE rest
  | _ => []

/-- `n` little-endian bytes of `x`. -/
def natToBytesLE : Nat → Nat → List Nat
  | 0, _ => []
  | n + 1, x => x % 256 :: natToBytesLE n (x / 256)

/-- Process one 64-byte chunk. -/
def md5Chunk (st : MD5State) (chunk : List Nat) : MD5State :=
  let m := bytesToWordsLE chunk
  let r := (List.range 64).foldl (md5Step m) st
  ⟨(st.a + r.a) % m32, (st.b + r.b) % m32, (st.c + r.c) % m32, (st.d + r.d) % m32⟩

/-- MD5 padding: append `0x80`, zero bytes to 56 mod 64, then the bit length
as 8 little-endian bytes. -/
def md5Pad (msg : List Nat) : List Nat :=
  let padZeros := (119 - msg.length % 64) % 64
  msg ++ [0x80] ++ List.replicate padZeros 0 ++
    natToBytesLE 8 ((8 * msg.length) % (2 ^ 64))

/-- Split a byte list into consecutive 64-byte chunks (accumulator holds the
current chunk reversed). -/
def toChunks64Go : List Nat → List Nat → List (List Nat)
  | [], acc => if acc = [] then [] else [acc.reverse]
  | x :: rest, acc =>
    if acc.length = 63 then (x :: acc).reverse :: toChunks64Go rest []
    else toChunks64Go rest (x :: acc)

/-- Split a byte list into consecutive 64-byte chunks. -/
def toChunks64 (l : List Nat) : List (List Nat) := toChunks64Go l []

/-- MD5 digest (16 bytes) of a byte list. -/
def md5 (msg : List Nat) : List Nat :=
  let st := (toChunks64 (md5Pad msg)).foldl md5Chunk
    ⟨0x67452301, 0xefcdab89, 0x98badcfe, 0x10325476⟩
  natToBytesLE 4 st.a ++ natToBytesLE 4 st.b ++ natToBytesLE 4 st.c ++
    natToBytesLE 4 st.d

/-- Lower-case hex digit. -/
def hexDigit (n : Nat) : Char :=
  if n < 10 then Char.ofNat (48 + n) else Char.ofNat (87 + n)

/-- Two hex digits of a byte. -/
def byteToHex (b : Nat) : List Char := [hexDigit (b / 16), hexDigit (b % 16)]

/-- `hashlib.md5(...).hexdigest()` as a string. -/
def md5Hexdigest (msg : List Nat) : String :=
  String.mk ((md5 msg).flatMap byteToHex)

/-- UTF-8 encoding of a code point (`str.encode()` per character). -/
def utf8EncodeCp (n : Nat) : List Nat :=
  if n < 0x80 then [n]
  else if n < 0x800 then [0xc0 + n / 64, 0x80 + n % 64]
  else if n < 0x10000 then
    [0xe0 + n / 4096, 0x80 + (n / 64) % 64, 0x80 + n % 64]
  else
    [0xf0 + n / 262144, 0x80 + (n / 4096) % 64, 0x80 + (n / 64) % 64,
     0x80 + n % 64]

/-- `url.encode()`: UTF-8 bytes of a string. -/
def utf8Encode (s : String) : List Nat :=
  s.toList.flatMap (fun c => utf8EncodeCp c.toNat)

/-- Bookmark id derivation from `BookmarkParser._parse_bookmark`:
`hashlib.md5(url.encode()).hexdigest()[:16]`. -/
def bookmarkId (url : String) : String :=
  String.mk (((md5 (utf8Encode url)).flatMap byteToHex).take 16)

set_option maxRecDepth 10000

/-- RFC 1321 test vector: `md5("") = d41d8cd98f00b204e9800998ecf8427e`. -/
theorem md5_test_vector_empty :
    md5Hexdigest (utf8Encode "") = "d41d8cd98f00b204e9800998ecf8427e" := by
  decide

/-- RFC 1321 test vector: `md5("abc") = 900150983cd24fb0d6963f7d28e17f72`. -/
theorem md5_test_vector_abc :
    md5Hexdigest (utf8Encode "abc") = "900150983cd24fb0d6963f7d28e17f72" := by
  decide

/-! ## Bookmark data model (`app/models/bookmark.py`)

`datetime` fields are modelled by Unix epoch seconds (`Int`). -/

structure Bookmark where
  id : String
  title : String
  url : String
  add_date : Option Int := none
  icon : Option String := none
  folder_path : String := "/"
  description : Option String := none
  tags : List String := []
deriving DecidableEq, Repr

/-! ## Duplicate detector (`AIAnalyzer.detect_duplicates`) -/

structure DuplicateGroup where
  title : String
  url : String
  count : Nat
  locations : List String
  bookmark_ids : List String
  suggestion : String
  similarity_type : String
deriving DecidableEq, Repr

/-- Append a bookmark to the bucket of key `k`, creating the bucket at the
end when `k` is new — the behaviour of `defaultdict(list)` indexed in
insertion order. -/
def addToGroups (gs : List (String × List Bookmark)) (k : String)
    (b : Bookmark) : List (String × List Bookmark) :=
  match gs with
  | [] => [(k, [b])]
  | (k', xs) :: rest =>
    if k' = k then (k', xs ++ [b]) :: rest
    else (k', xs) :: addToGroups rest k b

/-- Group a snapshot by a key function, preserving first-occurrence key order
and within-bucket element order (Python `defaultdict` filled in one loop). -/
def buildGroups (l : List Bookmark) (f : Bookmark → String) :
    List (String × List Bookmark) :=
  l.foldl (fun gs b => addToGroups gs (f b) b) []

/-- The exact-URL duplicate group built from a bucket (first member is the
representative). -/
def mkExactGroup (items : List Bookmark) : DuplicateGroup :=
  { title := (items.head?.map Bookmark.title).getD ""
    url := (items.head?.map Bookmark.url).getD ""
    count := items.length
    locations := items.map Bookmark.folder_path
    bookmark_ids := items.map Bookmark.id
    suggestion := "发现 " ++ toString items.length ++ " 个完全相同的书签，建议只保留一个"
    similarity_type := "exact_url" }

/-- The similar-title duplicate group built from a (filtered) bucket. -/
def mkSimilarGroup (items : List Bookmark) : DuplicateGroup :=
  { title := (items.head?.map Bookmark.title).getD ""
    url := (items.head?.map Bookmark.url).getD ""
    count := items.length
    locations := items.map Bookmark.folder_path
    bookmark_ids := items.map Bookmark.id
    suggestion := "发现 " ++ toString items.length ++ " 个标题相似但 URL 不同的书签，请检查是否需要合并"
    similarity_type := "similar_title" }

/-- First pass of `detect_duplicates`: walk the normalized-URL buckets in
order, skip buckets of size ≤ 1 and buckets containing an already-seen id,
otherwise record every member id as seen and emit an exact-URL group.
Returns the final seen-set together with the emitted groups. -/
def urlPass : List (String × List Bookmark) → List String →
    List String × List DuplicateGroup
  | [], seen => (seen, [])
  | (_, items) :: rest, seen =>
    if 1 < items.length then
      let ids := items.map Bookmark.id
      if ids.any (fun i => seen.contains i) then urlPass rest seen
      else
        let next := urlPass rest (seen ++ ids)
        (next.1, mkExactGroup items :: next.2)
    else urlPass rest seen

/-- Second pass of `detect_duplicates`: walk the normalized-title buckets in
order; drop already-seen members, and when more than one member remains and
their normalized URLs are not all identical, record the members as seen and
emit a similar-title group. -/
def titlePass : List (String × List Bookmark) → List String →
    List String × List DuplicateGroup
  | [], seen => (seen, [])
  | (_, items0) :: rest, seen =>
    if 1 < items0.length then
      let items := items0.filter (fun b => ¬ seen.contains b.id)
      if 1 < items.length then
        if 1 < ((items.map (fun b => normalizeUrl b.url)).dedup).length then
          let next := titlePass rest (seen ++ items.map Bookmark.id)
          (next.1, mkSimilarGroup items :: next.2)
        else titlePass rest seen
      else titlePass rest seen
    else titlePass rest seen

/-- Body of `detect_duplicates` on a non-empty snapshot: group by normalized
URL and (for bookmarks with a non-empty normalized title) by normalized
title, then run the two passes threading one seen-set.  The same-domain
grouping built by the Python loop is never read and is omitted. -/
def detectCore (snapshot : List Bookmark) : List DuplicateGroup :=
  let urlGroups := buildGroups snapshot (fun b => normalizeUrl b.url)
  let titleGroups :=
    buildGroups (snapshot.filter (fun b => normalizeTitle b.title ≠ ""))
      (fun b => normalizeTitle b.title)
  let p1 := urlPass urlGroups []
  let p2 := titlePass titleGroups p1.1
  p1.2 ++ p2.2

/-- `AIAnalyzer.detect_duplicates`: the snapshot is the result of
`vector_store.search("*", top_k=500)` — a list of (bookmark, score) pairs, or
an exception.  Any exception is caught and yields `[]`; an empty snapshot
yields `[]`. -/
def detectDuplicates (snapshotResult : Except String (List (Bookmark × Rat))) :
    List DuplicateGroup :=
  match snapshotResult with
  | .error _ => []
  | .ok rs => if rs = [] then [] else detectCore (rs.map Prod.fst)

/-! ## DOM model for `BookmarkParser` (`bookmark_parser.py`)

`BookmarkParser.parse` consumes a BeautifulSoup tree.  The tree is modelled
directly: a document is a list of root nodes, each node an element (name,
attributes, children) or a text node.  Attribute names are assumed already
lower-cased (as the HTML parser produces them).  Element positions are
addressed by child-index paths, which gives the parent/previous-sibling
navigation the Python code performs through BS4 back-references. -/

inductive Node where
  | elem (name : String) (attrs : List (String × String)) (children : List Node)
  | text (s : String)
deriving Repr

/- Structural tag equality: the model of bs4 `Tag.__eq__` (same name, same
attributes, same contents recursively), which is the key equality of the
`folder_map` dict. -/
mutual

def nodeBEq : Node → Node → Bool
  | .text s, .text t => s == t
  | .elem n1 a1 c1, .elem n2 a2 c2 => n1 == n2 && a1 == a2 && nodeListBEq c1 c2
  | _, _ => false

def nodeListBEq : List Node → List Node → Bool
  | [], [] => true
  | x :: xs, y :: ys => nodeBEq x y && nodeListBEq xs ys
  | _, _ => false

end

/-- `tag.name` (text nodes have no name; the Python code only ever compares
names of elements). -/
def Node.nameOf : Node → String
  | .elem n _ _ => n
  | .text _ => ""

/-- `tag.get(key)`. -/
def getAttr (n : Node) (key : String) : Option String :=
  match n with
  | .elem _ attrs _ => (attrs.find? (fun p => p.1 = key)).map (·.2)
  | .text _ => none

/-- Attribute presence, as used by `find_all('a', href=True)`. -/
def hasAttr (n : Node) (key : String) : Bool :=
  match n with
  | .elem _ attrs _ => attrs.any (fun p => p.1 = key)
  | .text _ => false

/- All text descendants of a node, in document order. -/
mutual

def nodeTexts : Node → List String
  | .text s => [s]
  | .elem _ _ cs => nodeTextsList cs

def nodeTextsList : List Node → List String
  | [] => []
  | c :: cs => nodeTexts c ++ nodeTextsList cs

end

/-- `tag.get_text(strip=True)`: the concatenation of all text descendants,
each stripped of surrounding whitespace. -/
def getTextStrip (n : Node) : String :=
  String.join ((nodeTexts n).map pyStrip)

/- All element nodes of a forest in document (pre-order) order. -/
mutual

def elemsOf : Node → List Node
  | .text _ => []
  | .elem nm attrs cs => Node.elem nm attrs cs :: allElems cs

def allElems : List Node → List Node
  | [] => []
  | n :: rest => elemsOf n ++ allElems rest

end

/-- `tag.find(name)`: first descendant element with the given name. -/
def findDesc (n : Node) (nm : String) : Option Node :=
  match n with
  | .text _ => none
  | .elem _ _ cs => (allElems cs).find? (fun m => m.nameOf = nm)

/- All element nodes of a forest with their child-index paths, in document
order (the traversal behind `soup.find_all`). -/
mutual

def locsOf : List Nat → Node → List (List Nat × Node)
  | _, .text _ => []
  | p, .elem nm attrs cs => (p, Node.elem nm attrs cs) :: nodeLocs p 0 cs

def nodeLocs : List Nat → Nat → List Node → List (List Nat × Node)
  | _, _, [] => []
  | pfx, i, n :: rest => locsOf (pfx ++ [i]) n ++ nodeLocs pfx (i + 1) rest

end

def allLocs (doc : List Node) : List (List Nat × Node) := nodeLocs [] 0 doc

/-- Node at a child-index path. -/
def childAt : List Node → List Nat → Option Node
  | _, [] => none
  | ns, [i] => ns[i]?
  | ns, i :: rest =>
    match ns[i]? with
    | some (.elem _ _ cs) => childAt cs rest
    | _ => none

/-- The list of siblings of the node at path `p` (the children of its
parent, or the document roots for a top-level node). -/
def siblingList (doc : List Node) (p : List Nat) : List Node :=
  let q := p.dropLast
  if q = [] then doc
  else
    match childAt doc q with
    | some (.elem _ _ cs) => cs
    | _ => []

/-- `previous_siblings`: nodes before position `p` among its siblings,
nearest first. -/
def prevSiblings (doc : List Node) (p : List Nat) : List Node :=
  ((siblingList doc p).take (p.getLast?.getD 0)).reverse

/-- The ancestor chain of a reversed path, innermost ancestor first, ending
with `[]` (the document itself, which is not an element). -/
def ancestorLocsRev : List Nat → List (List Nat)
  | [] => []
  | _ :: rest => rest :: ancestorLocsRev rest

/-- The ancestor chain of a path, innermost first (`element.parent`,
`element.parent.parent`, ...). -/
def ancestorLocs (p : List Nat) : List (List Nat) :=
  (ancestorLocsRev p.reverse).map List.reverse

/-- One step of `BookmarkParser._get_folder_path`: when the ancestor at `ℓ`
is a `dl`, the text of the first `h3` inside the nearest preceding `dt`
sibling, if any. -/
def dlPrevH3Text (doc : List Node) (ℓ : List Nat) : Option String :=
  if ℓ = [] then none
  else
    match childAt doc ℓ with
    | some (Node.elem "dl" _ _) =>
      match (prevSiblings doc ℓ).find? (fun n => n.nameOf = "dt") with
      | some dt => (findDesc dt "h3").map getTextStrip
      | none => none
    | _ => none

/-- `BookmarkParser._get_folder_path`: start from the `h3`'s own text and,
walking up the ancestor chain, prepend the folder name found at every `dl`
ancestor that has a preceding `dt` sibling containing an `h3`. -/
def getFolderPath (doc : List Node) (h3loc : List Nat) : String :=
  let h3txt := getTextStrip ((childAt doc h3loc).getD (.text ""))
  let parts := (ancestorLocs h3loc).foldl
    (fun acc ℓ =>
      match dlPrevH3Text doc ℓ with
      | some t => t :: acc
      | none => acc)
    [h3txt]
  "/" ++ String.intercalate "/" parts ++ "/"

/-- `folder_map[h3] = path` (dict assignment keyed by tag equality: an
existing key keeps its place and gets the new value). -/
def fmapUpdate (m : List (Node × String)) (k : Node) (v : String) :
    List (Node × String) :=
  if m.any (fun p => nodeBEq p.1 k) then
    m.map (fun p => if nodeBEq p.1 k then (p.1, v) else p)
  else m ++ [(k, v)]

/-- `folder_map[h3]` / `h3 in folder_map`. -/
def fmapFind (m : List (Node × String)) (k : Node) : Option String :=
  (m.find? (fun p => nodeBEq p.1 k)).map (·.2)

/-- Loop of `BookmarkParser._get_bookmark_folder_path` over the ancestor
chain: at each `dl` ancestor, look only at the nearest preceding `dt`
sibling; when it contains an `h3` known to `folder_map`, that path is the
answer; otherwise continue upward.  Falls back to `"/"`. -/
def bkPathLoop (doc : List Node) (fmap : List (Node × String)) :
    List (List Nat) → String
  | [] => "/"
  | ℓ :: rest =>
    let step : Option String :=
      if ℓ = [] then none
      else
        match childAt doc ℓ with
        | some (Node.elem "dl" _ _) =>
          match (prevSiblings doc ℓ).find? (fun n => n.nameOf = "dt") with
          | some dt =>
            match findDesc dt "h3" with
            | some h3 => fmapFind fmap h3
            | none => none
          | none => none
        | _ => none
    match step with
    | some p => p
    | none => bkPathLoop doc fmap rest

/-- `BookmarkParser._get_bookmark_folder_path`. -/
def getBookmarkFolderPath (doc : List Node) (fmap : List (Node × String))
    (aloc : List Nat) : String :=
  bkPathLoop doc fmap (ancestorLocs aloc)

/-! ## Timestamp parsing (`BookmarkParser._parse_timestamp`)

`int(timestamp_str)` is modelled for ASCII inputs (surrounding whitespace,
optional sign, digits with single underscores between digits).
`datetime.fromtimestamp` is modelled from the spec and CPython behaviour on a
64-bit platform with the local timezone taken as UTC: timestamps outside the
platform `time_t` range (±2^63) raise `OverflowError` — which the Python
`except (ValueError, OSError)` does NOT catch — and timestamps inside
`time_t` but outside the representable `datetime` range (years 1..9999, or
beyond the C library's conversion range) raise `ValueError`/`OSError`, which
is caught.  A raised, uncaught exception is `Except.error ()`. -/

/-- Digits-with-underscores tail of a Python integer literal (after the first
digit): every underscore must sit between two digits. -/
def pyIntDigitsRest : List Char → Bool
  | [] => true
  | '_' :: d :: rest => d.isDigit && pyIntDigitsRest (d :: rest)
  | d :: rest => d.isDigit && pyIntDigitsRest rest

/-- Valid unsigned body of `int(...)`: at least one digit, underscores only
between digits. -/
def pyIntBody : List Char → Bool
  | d :: rest => d.isDigit && pyIntDigitsRest rest
  | [] => false

/-- Numeric value of a digit/underscore list. -/
def digitsVal (l : List Char) : Nat :=
  (l.filter (· ≠ '_')).foldl (fun acc c => 10 * acc + (c.toNat - 48)) 0

/-- Model of Python `int(s)` for ASCII strings: `some n` on success, `none`
when `int` raises `ValueError`. -/
def pyIntOfStr? (s : String) : Option Int :=
  let l := pyStripList s.toList
  let signed : Int × List Char :=
    match l with
    | '+' :: r => (1, r)
    | '-' :: r => (-1, r)
    | r => (1, r)
  if pyIntBody signed.2 then some (signed.1 * (digitsVal signed.2 : Int))
  else none

/-- Smallest `time_t` value on the modelled 64-bit platform. -/
def timeTMin : Int := -9223372036854775808

/-- Largest `time_t` value on the modelled 64-bit platform. -/
def timeTMax : Int := 9223372036854775807

/-- Modelled from the spec: smallest epoch second `datetime.fromtimestamp`
accepts (year 1, timezone taken as UTC). -/
def dtMin : Int := -62135596800

/-- Modelled from the spec: largest epoch second `datetime.fromtimestamp`
accepts (year 9999, timezone taken as UTC). -/
def dtMax : Int := 253402300799

/-- `BookmarkParser._parse_timestamp`.  Returns `.ok (some ts)` for a valid
timestamp (epoch seconds after millisecond normalization), `.ok none` when
the input is missing/empty or a caught exception occurs, and `.error ()`
when `datetime.fromtimestamp` raises an uncaught `OverflowError`. -/
def parseTimestamp (tsStr : Option String) : Except Unit (Option Int) :=
  match tsStr with
  | none => .ok none
  | some s =>
    if s = "" then .ok none
    else
      match pyIntOfStr? s with
      | none => .ok none
      | some n =>
        let ts : Int := if 9999999999 < n then Int.fdiv n 1000 else n
        if ts < timeTMin ∨ timeTMax < ts then .error ()
        else if ts < dtMin ∨ dtMax < ts then .ok none
        else .ok (some ts)

/-! ## Bookmark parsing (`BookmarkParser._parse_bookmark`) -/

/-- `BookmarkParser._extract_tags`: comma-split `tags` attribute (each part
stripped, empties dropped) plus the `shortcuturl` attribute as one extra
tag. -/
def extractTags (a : Node) : List String :=
  let t := (getAttr a "tags").getD ""
  let sc := (getAttr a "shortcuturl").getD ""
  (if t = "" then [] else ((pySplitChar ',' t).map pyStrip).filter (· ≠ "")) ++
    (if sc = "" then [] else [sc])

/-- `BookmarkParser._parse_bookmark`: `none` when the `href` is missing or
empty, or when an exception escapes the body (the uncaught `OverflowError`
of `_parse_timestamp` is the one possible exception in this model, and the
surrounding `try`/`except` turns it into `None`). -/
def parseBookmark (a : Node) (folderPath : String) : Option Bookmark :=
  let url := (getAttr a "href").getD ""
  if url = "" then none
  else
    match parseTimestamp (getAttr a "add_date") with
    | .error _ => none
    | .ok addDate =>
      let icon := (getAttr a "icon").getD ""
      some
        { id := bookmarkId url
          title := getTextStrip a
          url := url
          add_date := addDate
          icon := if icon = "" then none else some icon
          folder_path := folderPath
          tags := extractTags a }

/-! ## Folder tree and `BookmarkParser.parse` -/

inductive BookmarkFolder where
  | mk (name : String) (path : String) (add_date : Option Int)
      (last_modified : Option Int) (bookmarks : List Bookmark)
      (subfolders : List BookmarkFolder)
deriving Repr

def BookmarkFolder.pathOf : BookmarkFolder → String
  | .mk _ p _ _ _ _ => p

def BookmarkFolder.bookmarksOf : BookmarkFolder → List Bookmark
  | .mk _ _ _ _ bs _ => bs

def BookmarkFolder.subfoldersOf : BookmarkFolder → List BookmarkFolder
  | .mk _ _ _ _ _ sf => sf

/- Paths of all folder nodes reachable from a folder, in pre-order. -/
mutual

def reachablePaths : BookmarkFolder → List String
  | .mk _ p _ _ _ subs => p :: reachablePathsList subs

def reachablePathsList : List BookmarkFolder → List String
  | [] => []
  | f :: fs => reachablePaths f ++ reachablePathsList fs

end

structure BookmarkCollection where
  root : BookmarkFolder
  total_bookmarks : Nat
  total_folders : Nat
deriving Repr

/-- The `h3` elements of the document with their paths, in document order. -/
def h3Locs (doc : List Node) : List (List Nat × Node) :=
  (allLocs doc).filter (fun ln => ln.2.nameOf = "h3")

/-- The `a` elements carrying an `href` attribute, in document order
(`soup.find_all('a', href=True)`). -/
def linkLocs (doc : List Node) : List (List Nat × Node) :=
  (allLocs doc).filter (fun ln => ln.2.nameOf = "a" && hasAttr ln.2 "href")

/-- The `folder_map` built by `BookmarkParser.parse`: every `h3` mapped to
the path computed from its position (dict semantics: a structurally equal
later `h3` overwrites the stored path). -/
def buildFolderMap (doc : List Node) : List (Node × String) :=
  (h3Locs doc).foldl (fun m ln => fmapUpdate m ln.2 (getFolderPath doc ln.1)) []

/-- `BookmarkParser.parse`: count one folder per `h3`; parse every link with
the folder path of its nearest mapped folder; return a collection whose root
folder holds all parsed bookmarks as a flat list and has no subfolders. -/
def parse (doc : List Node) : BookmarkCollection :=
  let fmap := buildFolderMap doc
  let bms := (linkLocs doc).filterMap
    (fun ln => parseBookmark ln.2 (getBookmarkFolderPath doc fmap ln.1))
  { root := .mk "Bookmarks" "/" none none bms []
    total_bookmarks := bms.length
    total_folders := (h3Locs doc).length }

/-! ## Vector store (`vector_store.py`)

The ChromaDB collection is modelled as an association list from id to entry,
in insertion order.  `collection.upsert` is id-keyed: an existing id keeps
its position and gets the new document/metadata, a new id is appended.
Scores/distances are `Rat`.  `datetime.isoformat()` is modelled as the
decimal epoch-second string (no claim reads this field). -/

structure BkMetadata where
  title : String
  url : String
  folder_path : String
  add_date : String
  tags : String
deriving DecidableEq, Repr

structure IndexEntry where
  document : String
  metadata : BkMetadata
deriving DecidableEq, Repr

/-- `VectorStore._create_document_text`. -/
def createDocumentText (b : Bookmark) : String :=
  let parts1 := if b.title ≠ "" then [b.title] else []
  let parts2 :=
    if b.url ≠ "" then
      let parsed := pyUrlparse b.url
      let segs := ((pySplitChar '/' parsed.path).filter (· ≠ "")).take 3
      parts1 ++ [parsed.netloc] ++ segs
    else parts1
  let parts3 :=
    if b.folder_path ≠ "" ∧ b.folder_path ≠ "/" then
      parts2 ++
        [String.mk ((stripSlashList b.folder_path.toList).map
          (fun c => if c = '/' then ' ' else c))]
    else parts2
  let parts4 := if b.tags ≠ [] then parts3 ++ b.tags else parts3
  String.intercalate " " parts4

/-- The metadata projection stored by `VectorStore.add_bookmarks`. -/
def mkMetadata (b : Bookmark) : BkMetadata :=
  { title := if b.title ≠ "" then pyTake b.title 500 else ""
    url := if b.url ≠ "" then pyTake b.url 1000 else ""
    folder_path := if b.folder_path ≠ "" then pyTake b.folder_path 500 else "/"
    add_date := match b.add_date with
      | some t => toString t
      | none => ""
    tags := if b.tags ≠ [] then String.intercalate "," b.tags else "" }

/-- The `(id, document, metadata)` tuple written for a bookmark. -/
def mkEntry (b : Bookmark) : String × IndexEntry :=
  (b.id, ⟨createDocumentText b, mkMetadata b⟩)

/-- The store state: entries keyed by id, in insertion order. -/
abbrev StoreState := List (String × IndexEntry)

/-- Id-keyed upsert: overwrite in place when the id exists, append
otherwise. -/
def upsertEntry (st : StoreState) (e : String × IndexEntry) : StoreState :=
  if st.any (fun p => p.1 = e.1) then
    st.map (fun p => if p.1 = e.1 then e else p)
  else st ++ [e]

/-- `VectorStore.add_bookmarks`: optionally clear the collection, skip
bookmarks with an empty id, and upsert the remaining entries (the ≤100
batching bounds payload size only and does not change the resulting state);
returns the new state and the reported added count. -/
def addBookmarks (st : StoreState) (bookmarks : List Bookmark)
    (replace : Bool) : StoreState × Nat :=
  let st0 := if replace then [] else st
  let entries := (bookmarks.filter (fun b => b.id ≠ "")).map mkEntry
  (entries.foldl upsertEntry st0, entries.length)

/-- `VectorStore.get_count`. -/
def getCount (st : StoreState) : Nat := st.length

/-- `VectorStore.search`: the underlying `collection.query` call either
raises (any exception is caught and yields `[]`) or returns parallel rows of
(id, metadata, distance); each row becomes a bookmark with score
`max(0, 1 - distance/2)`. -/
def vsSearch (queryResult : Except String (List (String × BkMetadata × Rat))) :
    List (Bookmark × Rat) :=
  match queryResult with
  | .error _ => []
  | .ok rows =>
    rows.map (fun r =>
      ({ id := r.1
         title := r.2.1.title
         url := r.2.1.url
         folder_path := r.2.1.folder_path
         tags := if r.2.1.tags ≠ "" then pySplitChar ',' r.2.1.tags else [] },
       max 0 (1 - r.2.2 / 2)))

/-! ## RAG engine (`rag_engine.py`) -/

/-- `RAGEngine._build_context`: the explicit no-results marker for an empty
source list, otherwise numbered descriptions separated by blank lines. -/
def buildContext (bookmarks : List Bookmark) : String :=
  if bookmarks = [] then "没有找到相关书签。"
  else
    String.intercalate "\n\n"
      (bookmarks.enum.map (fun bi =>
        toString (bi.1 + 1) ++ ". 标题: " ++ bi.2.title ++
          "\n   URL: " ++ bi.2.url ++
          (if bi.2.folder_path ≠ "" ∧ bi.2.folder_path ≠ "/" then
            "\n   分类: " ++ String.mk (stripSlashList bi.2.folder_path.toList)
          else "") ++
          (if bi.2.tags ≠ [] then
            "\n   标签: " ++ String.intercalate ", " bi.2.tags
          else "")))

/-- The fixed system instruction of `RAGEngine.chat`. -/
def ragSystemPrompt : String :=
  "你是一个智能书签助手。你的任务是帮助用户在他们的浏览器收藏夹中查找信息。\n\n用户会问关于他们收藏的网站的问题。我会提供与问题相关的书签信息作为参考。\n\n请根据提供的书签信息回答用户的问题。如果书签信息中没有相关内容，请诚实地告诉用户。\n\n回答时请：\n1. 简洁明了地回答问题\n2. 如果找到相关书签，列出它们的标题和URL\n3. 如果可能，根据书签的分类和内容提供建议\n4. 使用中文回答"

/-- The (role, content) message list `RAGEngine.chat` hands to the
generation capability, given the retrieval results and the user message. -/
def chatMessages (searchResults : List (Bookmark × Rat)) (message : String) :
    List (String × String) :=
  let sources := searchResults.map Prod.fst
  let context := buildContext sources
  [("system", ragSystemPrompt),
   ("user", "参考书签信息：\n" ++ context ++ "\n\n用户问题：" ++ message)]

/-- `RAGEngine.chat` after retrieval: a generation failure is re-raised, a
generated text is returned together with the source bookmarks (or `[]` when
`include_sources` is false). -/
def chatResult (searchResults : List (Bookmark × Rat))
    (includeSources : Bool) (genResult : Except String String) :
    Except String (String × List Bookmark) :=
  let sources := searchResults.map Prod.fst
  match genResult with
  | .error e => .error e
  | .ok answer => .ok (answer, if includeSources then sources else [])

/-! ## Concrete fixtures -/

/-- A document with one folder `Work` containing one bookmark, in the
sibling `<dt><h3>` / `<dl>` shape produced for Netscape bookmark exports. -/
def demoDoc : List Node :=
  [.elem "dl" []
    [.elem "dt" [] [.elem "h3" [("add_date", "1700000000")] [.text "Work"]],
     .elem "dl" []
       [.elem "dt" []
         [.elem "a" [("href", "https://mail.example.com/"),
                     ("add_date", "1700000000")] [.text "Inbox"]]]]]

/-- A document with one folder containing zero bookmarks and one empty
subfolder. -/
def emptyFoldersDoc : List Node :=
  [.elem "dl" []
    [.elem "dt" [] [.elem "h3" [] [.text "Outer"]],
     .elem "dl" []
       [.elem "dt" [] [.elem "h3" [] [.text "Inner"]],
        .elem "dl" [] []]]]

/-- A single bookmark link element. -/
def linkA : Node :=
  .elem "a" [("href", "https://mail.example.com/")] [.text "Inbox"]

/-- The bookmark `linkA` parses to, at folder path `p`. -/
def bkA (p : String) : Bookmark :=
  { id := "39f39321e778916b"
    title := "Inbox"
    url := "https://mail.example.com/"
    folder_path := p }

/-! ## Claim theorems -/

instance {ε α : Type} [DecidableEq ε] [DecidableEq α] :
    DecidableEq (Except ε α) := fun a b =>
  match a, b with
  | .error x, .error y =>
    if h : x = y then isTrue (by rw [h]) else
      isFalse (fun hc => h (Except.error.inj hc))
  | .ok x, .ok y =>
    if h : x = y then isTrue (by rw [h]) else
      isFalse (fun hc => h (Except.ok.inj hc))
  | .error _, .ok _ => isFalse (fun hc => Except.noConfusion hc)
  | .ok _, .error _ => isFalse (fun hc => Except.noConfusion hc)

/-- Auxiliary for C1: a successfully parsed bookmark's `id` and `url` are
functions of the link's `href` attribute alone. -/
theorem parseBookmark_fields (a : Node) (p : String) (b : Bookmark)
    (h : parseBookmark a p = some b) :
    b.id = bookmarkId ((getAttr a "href").getD "") ∧
    b.url = (getAttr a "href").getD "" := by
  simp only [parseBookmark] at h
  split at h
  · exact Option.noConfusion h
  · split at h
    · exact Option.noConfusion h
    · injection h with h
      subst h
      exact ⟨rfl, rfl⟩

/-- C1, counterexample: the two URLs `http://www.example.com/page` and
`https://example.com/page/` have identical normalized URLs, yet the
parser-derived ids (first 16 hex characters of the MD5 of the raw URL)
differ — so identical normalized URLs do not imply equal ids. -/
theorem c1_counterexample :
    normalizeUrl "http://www.example.com/page" =
      normalizeUrl "https://example.com/page/" ∧
    bookmarkId "http://www.example.com/page" ≠
      bookmarkId "https://example.com/page/" := by
  constructor
  · decide
  · decide

/-- C1, amended: the id is a pure function of the raw URL: any two links
parsed with identical (non-empty) `href` attributes receive the same id
(and the same stored URL), whatever folder they are parsed under; identical
normalized URLs are not sufficient. -/
theorem c1_amended (a1 a2 : Node) (p1 p2 : String) (b1 b2 : Bookmark)
    (h1 : parseBookmark a1 p1 = some b1) (h2 : parseBookmark a2 p2 = some b2)
    (h : getAttr a1 "href" = getAttr a2 "href") :
    b1.id = b2.id ∧ b1.url = b2.url := by
  obtain ⟨hi1, hu1⟩ := parseBookmark_fields a1 p1 b1 h1
  obtain ⟨hi2, hu2⟩ := parseBookmark_fields a2 p2 b2 h2
  rw [hi1, hi2, hu1, hu2, h]
  exact ⟨rfl, rfl⟩

/-- C1, witness: `c1_amended` applied to `linkA` imported under two
different folder paths. -/
theorem c1_amended_witness :
    (bkA "/").id = (bkA "/Work/").id ∧ (bkA "/").url = (bkA "/Work/").url :=
  c1_amended linkA linkA "/" "/Work/" (bkA "/") (bkA "/Work/")
    (by decide) (by decide) rfl

/-- C5, counterexample: parsing `demoDoc` yields a bookmark whose
`folder_path` is `/Work/`, but the returned tree's only reachable folder
node is the root with path `/` — so the bookmark's `folder_path` matches
the path of no reachable folder node, not exactly one. -/
theorem c5_counterexample :
    ((parse demoDoc).root.bookmarksOf.map Bookmark.folder_path = ["/Work/"]) ∧
    reachablePaths (parse demoDoc).root = ["/"] ∧
    "/Work/" ∉ reachablePaths (parse demoDoc).root := by
  refine ⟨by decide, by decide, ?_⟩
  intro hmem
  have : reachablePaths (parse demoDoc).root = ["/"] := by decide
  rw [this] at hmem
  simp at hmem

/-- C5, amended: for every document the returned tree is flat: the root
folder has path `/` and no subfolders, so the reachable folder paths are
exactly `["/"]` (trivially unique), and a bookmark's `folder_path` matches
a reachable folder node if and only if it is `/`.  The folder hierarchy is
recorded only in the bookmarks' `folder_path` strings, not in the returned
tree. -/
theorem c5_amended (doc : List Node) :
    (parse doc).root.pathOf = "/" ∧
    (parse doc).root.subfoldersOf = [] ∧
    reachablePaths (parse doc).root = ["/"] ∧
    (reachablePaths (parse doc).root).Nodup ∧
    (∀ b ∈ (parse doc).root.bookmarksOf,
      (b.folder_path ∈ reachablePaths (parse doc).root ↔ b.folder_path = "/")) := by
  refine ⟨rfl, rfl, rfl, ?_, ?_⟩
  · exact List.nodup_singleton "/"
  · intro b _
    show b.folder_path ∈ ["/"] ↔ b.folder_path = "/"
    simp

/-- The bookmark `parse demoDoc` extracts. -/
def c5bk : Bookmark :=
  { id := "39f39321e778916b"
    title := "Inbox"
    url := "https://mail.example.com/"
    add_date := some 1700000000
    folder_path := "/Work/" }

/-- C5, witness: `c5_amended` applied to `demoDoc` and its parsed
bookmark. -/
theorem c5_amended_witness :
    c5bk.folder_path ∈ reachablePaths (parse demoDoc).root ↔
      c5bk.folder_path = "/" :=
  (c5_amended demoDoc).2.2.2.2 c5bk (by decide)

/-- C7, counterexample: the 22-digit add-date attribute
`"10000000000000000000000"` is a valid integer above the
millisecond threshold; after division by 1000 it still exceeds the 64-bit
`time_t` range, so `datetime.fromtimestamp` raises `OverflowError`, which
`except (ValueError, OSError)` does not catch — the timestamp parser
raises instead of yielding `None`. -/
theorem c7_counterexample :
    parseTimestamp (some "10000000000000000000000") = .error () := by decide

/-- C7, amended: integer add-date values above 9,999,999,999 are divided by
1000, so `"1700000000000"` and `"1700000000"` yield the same date;
non-integer strings yield `None`; out-of-range timestamps that fit in the
platform's 64-bit `time_t` yield `None`; but timestamps beyond `time_t`
raise an uncaught `OverflowError` (the bookmark-level `try`/`except` then
drops the whole bookmark rather than just the date). -/
theorem c7_amended :
    (parseTimestamp (some "1700000000000") = parseTimestamp (some "1700000000") ∧
     parseTimestamp (some "1700000000") = .ok (some 1700000000)) ∧
    (∀ s, pyIntOfStr? s = none → parseTimestamp (some s) = .ok none) ∧
    (∀ s n, pyIntOfStr? s = some n → timeTMin ≤ n → n ≤ 9999999999 →
      n < dtMin → parseTimestamp (some s) = .ok none) ∧
    (∀ s n, pyIntOfStr? s = some n → 9999999999 < n →
      Int.fdiv n 1000 ≤ timeTMax → dtMax < Int.fdiv n 1000 →
      parseTimestamp (some s) = .ok none) ∧
    (∀ s n, pyIntOfStr? s = some n → 9999999999 < n →
      timeTMax < Int.fdiv n 1000 →
      parseTimestamp (some s) = .error ()) ∧
    (∀ a p s n, getAttr a "add_date" = some s → pyIntOfStr? s = some n →
      9999999999 < n → timeTMax < Int.fdiv n 1000 →
      (getAttr a "href").getD "" ≠ "" → parseBookmark a p = none) := by
  have hne : ∀ (s : String) (n : Int), pyIntOfStr? s = some n → s ≠ "" := by
    intro s n hs h
    subst h
    have h0 : pyIntOfStr? "" = none := by decide
    rw [h0] at hs
    exact Option.noConfusion hs
  refine ⟨⟨by decide, by decide⟩, ?_, ?_, ?_, ?_, ?_⟩
  · intro s hs
    by_cases hse : s = ""
    · subst hse; rfl
    · simp only [parseTimestamp, if_neg hse, hs]
  · intro s n hs hmin hle hlt
    have hse := hne s n hs
    have hts : ¬ (9999999999 : Int) < n := by omega
    simp only [parseTimestamp, if_neg hse, hs, if_neg hts]
    have h1 : ¬ (n < timeTMin ∨ timeTMax < n) := by
      simp only [timeTMin, timeTMax, dtMin] at *
      omega
    rw [if_neg h1, if_pos]
    left
    exact hlt
  · intro s n hs hgt hle hr
    have hse := hne s n hs
    simp only [parseTimestamp, if_neg hse, hs, if_pos hgt]
    have h0 : (0 : Int) ≤ Int.fdiv n 1000 := by
      apply Int.fdiv_nonneg <;> omega
    have h1 : ¬ (Int.fdiv n 1000 < timeTMin ∨ timeTMax < Int.fdiv n 1000) := by
      simp only [timeTMin, timeTMax] at *
      omega
    rw [if_neg h1, if_pos]
    right
    exact hr
  · intro s n hs hgt hr
    have hse := hne s n hs
    simp only [parseTimestamp, if_neg hse, hs, if_pos hgt]
    rw [if_pos]
    right
    exact hr
  · intro a p s n hattr hs hgt hr hhref
    have hts : parseTimestamp (getAttr a "add_date") = .error () := by
      rw [hattr]
      have hse := hne s n hs
      simp only [parseTimestamp, if_neg hse, hs, if_pos hgt]
      rw [if_pos]
      right
      exact hr
    simp only [parseBookmark, if_neg hhref, hts]

/-- C7, witness: `c7_amended` applied at the concrete inputs `"abc"`
(non-integer), `"-99999999999"` (in `time_t`, below the representable
`datetime` range), `"253402300800999"` (millisecond value one second past
year 9999), and `"10000000000000000000000"` (beyond `time_t`, uncaught),
the last also through a whole link element. -/
theorem c7_amended_witness :
    parseTimestamp (some "abc") = .ok none ∧
    parseTimestamp (some "-99999999999") = .ok none ∧
    parseTimestamp (some "253402300800999") = .ok none ∧
    parseTimestamp (some "10000000000000000000000") = .error () ∧
    parseBookmark
      (.elem "a" [("href", "http://x.example/"),
                  ("add_date", "10000000000000000000000")] []) "/" = none :=
  ⟨c7_amended.2.1 "abc" (by decide),
   c7_amended.2.2.1 "-99999999999" (-99999999999) (by decide) (by decide)
     (by decide) (by decide),
   c7_amended.2.2.2.1 "253402300800999" 253402300800999 (by decide)
     (by decide) (by decide) (by decide),
   c7_amended.2.2.2.2.1 "10000000000000000000000" 10000000000000000000000
     (by decide) (by decide) (by decide),
   c7_amended.2.2.2.2.2
     (.elem "a" [("href", "http://x.example/"),
                 ("add_date", "10000000000000000000000")] []) "/"
     "10000000000000000000000" 10000000000000000000000 (by decide) (by decide)
     (by decide) (by decide) (by decide)⟩

/-- Length of `filterMap` counts the elements on which `f` succeeds. -/
theorem length_filterMap_eq_length_filter {α β : Type} (f : α → Option β) :
    ∀ l : List α, (l.filterMap f).length = (l.filter (fun a => (f a).isSome)).length := by
  intro l
  induction l with
  | nil => rfl
  | cons x xs ih =>
    rw [List.filterMap_cons, List.filter_cons]
    cases hx : f x with
    | none => simp [hx, ih]
    | some b => simp [hx, ih]

/-- Whether `_parse_bookmark` succeeds does not depend on the folder path it
is handed. -/
theorem parseBookmark_isSome_path (a : Node) (p : String) :
    (parseBookmark a p).isSome = (parseBookmark a "/").isSome := by
  simp only [parseBookmark]
  split
  · rfl
  · split <;> rfl

/- The second components of the located-element traversal are exactly the
document-order element traversal. -/
mutual

theorem locsOf_map_snd : ∀ (p : List Nat) (n : Node),
    (locsOf p n).map Prod.snd = elemsOf n
  | _, .text _ => rfl
  | p, .elem nm attrs cs => by
    simp only [locsOf, elemsOf, List.map_cons]
    rw [nodeLocs_map_snd]

theorem nodeLocs_map_snd : ∀ (pfx : List Nat) (i : Nat) (ns : List Node),
    (nodeLocs pfx i ns).map Prod.snd = allElems ns
  | _, _, [] => rfl
  | pfx, i, n :: rest => by
    simp only [nodeLocs, allElems, List.map_append]
    rw [locsOf_map_snd, nodeLocs_map_snd]

end

/-- Filtering located elements by a node predicate counts the same elements
as filtering the element traversal. -/
theorem locs_filter_length (doc : List Node) (F : Node → Bool) :
    ((allLocs doc).filter (fun ln => F ln.2)).length =
      ((allElems doc).filter F).length := by
  have h1 : allElems doc = (allLocs doc).map Prod.snd :=
    (nodeLocs_map_snd [] 0 doc).symm
  rw [h1, List.filter_map, List.length_map]
  rfl

/-- A link parses to a bookmark exactly when its `href` is present and
non-empty and its add-date attribute does not overflow `time_t`. -/
def linkParses (n : Node) : Bool :=
  (n.nameOf = "a") && hasAttr n "href" && (parseBookmark n "/").isSome

/-- C6: for every document, `total_folders` equals the number of `h3`
elements and `total_bookmarks` equals the number of link elements that
parse successfully, each counted exactly once in the single traversal; in
particular the document with one folder containing zero bookmarks and one
empty subfolder yields `total_folders = 2` (both folders) and
`total_bookmarks = 0`. -/
theorem c6_counts :
    (∀ doc : List Node,
      (parse doc).total_folders =
        ((allElems doc).filter (fun n => n.nameOf = "h3")).length ∧
      (parse doc).total_bookmarks =
        ((allElems doc).filter linkParses).length) ∧
    (parse emptyFoldersDoc).total_folders = 2 ∧
    (parse emptyFoldersDoc).total_bookmarks = 0 := by
  refine ⟨fun doc => ⟨?_, ?_⟩, by decide, by decide⟩
  · show (h3Locs doc).length = _
    rw [h3Locs]
    exact locs_filter_length doc (fun n => n.nameOf = "h3")
  · show ((linkLocs doc).filterMap _).length = _
    rw [length_filterMap_eq_length_filter]
    have hcongr :
        (linkLocs doc).filter
            (fun ln =>
              (parseBookmark ln.2
                (getBookmarkFolderPath doc (buildFolderMap doc) ln.1)).isSome) =
          (linkLocs doc).filter (fun ln => (parseBookmark ln.2 "/").isSome) := by
      apply List.filter_congr
      intro ln _
      rw [parseBookmark_isSome_path]
    rw [hcongr, linkLocs, List.filter_filter]
    have h2 := locs_filter_length doc
      (fun n => (parseBookmark n "/").isSome &&
        ((n.nameOf = "a") && hasAttr n "href"))
    rw [h2]
    apply congrArg List.length
    apply List.filter_congr
    intro n _
    exact Bool.and_comm _ _

/-! ### Bucket lemmas for the duplicate detector -/

open List

/-- Adding an element to its bucket permutes the flattened contents by
appending that element. -/
theorem addToGroups_bind_perm (gs : List (String × List Bookmark))
    (k : String) (b : Bookmark) :
    (addToGroups gs k b).flatMap (·.2) ~ gs.flatMap (·.2) ++ [b] := by
  induction gs with
  | nil => simp [addToGroups]
  | cons hd tl ih =>
    obtain ⟨k', xs⟩ := hd
    by_cases h : k' = k
    · simp only [addToGroups, if_pos h, List.flatMap_cons]
      calc (xs ++ [b]) ++ tl.flatMap (·.2)
          = xs ++ ([b] ++ tl.flatMap (·.2)) := by rw [List.append_assoc]
        _ ~ xs ++ (tl.flatMap (·.2) ++ [b]) :=
            List.Perm.append_left xs (List.perm_append_comm)
        _ = (xs ++ tl.flatMap (·.2)) ++ [b] := by rw [List.append_assoc]
    · simp only [addToGroups, if_neg h, List.flatMap_cons]
      calc xs ++ (addToGroups tl k b).flatMap (·.2)
          ~ xs ++ (tl.flatMap (·.2) ++ [b]) := List.Perm.append_left xs ih
        _ = (xs ++ tl.flatMap (·.2)) ++ [b] := by rw [List.append_assoc]

/-- Folding a list into buckets permutes the flattened contents by appending
the list. -/
theorem buildGroups_aux_perm (f : Bookmark → String) (l : List Bookmark) :
    ∀ gs, (l.foldl (fun gs b => addToGroups gs (f b) b) gs).flatMap (·.2) ~
      gs.flatMap (·.2) ++ l := by
  induction l with
  | nil => intro gs; simp
  | cons x xs ih =>
    intro gs
    simp only [List.foldl_cons]
    calc (xs.foldl (fun gs b => addToGroups gs (f b) b)
            (addToGroups gs (f x) x)).flatMap (·.2)
        ~ (addToGroups gs (f x) x).flatMap (·.2) ++ xs := ih _
      _ ~ (gs.flatMap (·.2) ++ [x]) ++ xs :=
          List.Perm.append_right xs (addToGroups_bind_perm gs (f x) x)
      _ = gs.flatMap (·.2) ++ (x :: xs) := by simp

/-- The buckets of `buildGroups` flatten to a permutation of the input. -/
theorem buildGroups_bind_perm (l : List Bookmark) (f : Bookmark → String) :
    (buildGroups l f).flatMap (·.2) ~ l := by
  have h := buildGroups_aux_perm f l []
  simpa [buildGroups] using h

/-- Every bucket member comes from the grouped list. -/
theorem buildGroups_mem (l : List Bookmark) (f : Bookmark → String) :
    ∀ p ∈ buildGroups l f, ∀ x ∈ p.2, x ∈ l := by
  intro p hp x hx
  have hbind : x ∈ (buildGroups l f).flatMap (·.2) :=
    List.mem_flatMap.mpr ⟨p, hp, hx⟩
  exact (buildGroups_bind_perm l f).subset hbind

theorem mkExactGroup_ids (items : List Bookmark) :
    (mkExactGroup items).bookmark_ids = items.map Bookmark.id := rfl

theorem mkSimilarGroup_ids (items : List Bookmark) :
    (mkSimilarGroup items).bookmark_ids = items.map Bookmark.id := rfl

/-- Two duplicate groups report disjoint id sets. -/
def idsDisjoint (g1 g2 : DuplicateGroup) : Prop :=
  ∀ i, i ∈ g1.bookmark_ids → i ∉ g2.bookmark_ids

/-- Invariants of the exact-URL pass: the seen-set only grows; every id of
every emitted group lands in the final seen-set and was not already seen;
and the emitted groups are pairwise id-disjoint. -/
theorem urlPass_spec (gs : List (String × List Bookmark)) (seen : List String) :
    (∀ x ∈ seen, x ∈ (urlPass gs seen).1) ∧
    (∀ g ∈ (urlPass gs seen).2, ∀ i ∈ g.bookmark_ids,
      i ∈ (urlPass gs seen).1 ∧ i ∉ seen) ∧
    (urlPass gs seen).2.Pairwise idsDisjoint := by
  induction gs generalizing seen with
  | nil => simp [urlPass]
  | cons hd tl ih =>
    obtain ⟨k, items⟩ := hd
    by_cases h1 : 1 < items.length
    · by_cases h2 :
        (items.map Bookmark.id).any (fun i => seen.contains i) = true
      · simpa only [urlPass, if_pos h1, if_pos h2] using ih seen
      · have hfresh : ∀ i ∈ items.map Bookmark.id, i ∉ seen := by
          intro i hi hmem
          apply h2
          rw [List.any_eq_true]
          exact ⟨i, hi, by simpa using hmem⟩
        have IH := ih (seen ++ items.map Bookmark.id)
        simp only [urlPass, if_pos h1, if_neg h2]
        refine ⟨?_, ?_, ?_⟩
        · intro x hx
          exact IH.1 x (List.mem_append_left _ hx)
        · intro g hg i hig
          rcases List.mem_cons.mp hg with hgmk | hgtl
          · subst hgmk
            rw [mkExactGroup_ids] at hig
            refine ⟨IH.1 i (List.mem_append_right _ hig), hfresh i hig⟩
          · obtain ⟨hi1, hi2⟩ := IH.2.1 g hgtl i hig
            exact ⟨hi1, fun hmem => hi2 (List.mem_append_left _ hmem)⟩
        · rw [List.pairwise_cons]
          refine ⟨?_, IH.2.2⟩
          intro g' hg' i hig hig'
          have := (IH.2.1 g' hg' i hig').2
          rw [mkExactGroup_ids] at hig
          exact this (List.mem_append_right _ hig)
    · simpa only [urlPass, if_neg h1] using ih seen

/-- Every group the exact-URL pass emits is labelled `exact_url`. -/
theorem urlPass_types (gs : List (String × List Bookmark)) (seen : List String) :
    ∀ g ∈ (urlPass gs seen).2, g.similarity_type = "exact_url" := by
  induction gs generalizing seen with
  | nil => simp [urlPass]
  | cons hd tl ih =>
    obtain ⟨k, items⟩ := hd
    by_cases h1 : 1 < items.length
    · by_cases h2 :
        (items.map Bookmark.id).any (fun i => seen.contains i) = true
      · simpa only [urlPass, if_pos h1, if_pos h2] using ih seen
      · simp only [urlPass, if_pos h1, if_neg h2]
        intro g hg
        rcases List.mem_cons.mp hg with hgmk | hgtl
        · subst hgmk; rfl
        · exact ih _ g hgtl
    · simpa only [urlPass, if_neg h1] using ih seen

/-- Invariants of the similar-title pass, mirror-image of `urlPass_spec`. -/
theorem titlePass_spec (gs : List (String × List Bookmark)) (seen : List String) :
    (∀ x ∈ seen, x ∈ (titlePass gs seen).1) ∧
    (∀ g ∈ (titlePass gs seen).2, ∀ i ∈ g.bookmark_ids,
      i ∈ (titlePass gs seen).1 ∧ i ∉ seen) ∧
    (titlePass gs seen).2.Pairwise idsDisjoint := by
  induction gs generalizing seen with
  | nil => simp [titlePass]
  | cons hd tl ih =>
    obtain ⟨k, items0⟩ := hd
    by_cases h1 : 1 < items0.length
    case neg => simpa only [titlePass, if_neg h1] using ih seen
    by_cases h2 :
      1 < (items0.filter (fun b => ¬ seen.contains b.id = true)).length
    case neg => simpa only [titlePass, if_pos h1, if_neg h2] using ih seen
    by_cases h3 :
      1 < (((items0.filter (fun b => ¬ seen.contains b.id = true)).map
        (fun b => normalizeUrl b.url)).dedup).length
    case neg => simpa only [titlePass, if_pos h1, if_pos h2, if_neg h3] using ih seen
    have hfresh :
        ∀ b ∈ items0.filter (fun b => ¬ seen.contains b.id = true),
          b.id ∉ seen := by
      intro b hb
      have := (List.mem_filter.mp hb).2
      simpa using this
    have IH := ih (seen ++
      (items0.filter (fun b => ¬ seen.contains b.id = true)).map Bookmark.id)
    simp only [titlePass, if_pos h1, if_pos h2, if_pos h3]
    refine ⟨?_, ?_, ?_⟩
    · intro x hx
      exact IH.1 x (List.mem_append_left _ hx)
    · intro g hg i hig
      rcases List.mem_cons.mp hg with hgmk | hgtl
      · subst hgmk
        rw [mkSimilarGroup_ids] at hig
        refine ⟨IH.1 i (List.mem_append_right _ hig), ?_⟩
        obtain ⟨b, hb, hbid⟩ := List.mem_map.mp hig
        subst hbid
        exact hfresh b hb
      · obtain ⟨hi1, hi2⟩ := IH.2.1 g hgtl i hig
        exact ⟨hi1, fun hmem => hi2 (List.mem_append_left _ hmem)⟩
    · rw [List.pairwise_cons]
      refine ⟨?_, IH.2.2⟩
      intro g' hg' i hig hig'
      have := (IH.2.1 g' hg' i hig').2
      rw [mkSimilarGroup_ids] at hig
      exact this (List.mem_append_right _ hig)

/-- Every group the similar-title pass emits is labelled `similar_title`,
is built from members of some input bucket, and those members carry more
than one distinct normalized URL. -/
theorem titlePass_emitted (gs : List (String × List Bookmark))
    (seen : List String) :
    ∀ g ∈ (titlePass gs seen).2, ∃ items : List Bookmark,
      g = mkSimilarGroup items ∧
      (∀ b ∈ items, ∃ p ∈ gs, b ∈ p.2) ∧
      1 < ((items.map (fun b => normalizeUrl b.url)).dedup).length := by
  induction gs generalizing seen with
  | nil => simp [titlePass]
  | cons hd tl ih =>
    obtain ⟨k, items0⟩ := hd
    have step : ∀ s g, g ∈ (titlePass tl s).2 → ∃ items : List Bookmark,
        g = mkSimilarGroup items ∧
        (∀ b ∈ items, ∃ p ∈ (k, items0) :: tl, b ∈ p.2) ∧
        1 < ((items.map (fun b => normalizeUrl b.url)).dedup).length := by
      intro s g hg
      obtain ⟨items, hgeq, hmem, hurls⟩ := ih s g hg
      exact ⟨items, hgeq,
        fun b hb =>
          let ⟨p, hp, hbp⟩ := hmem b hb
          ⟨p, List.mem_cons_of_mem _ hp, hbp⟩,
        hurls⟩
    by_cases h1 : 1 < items0.length
    case neg =>
      simp only [titlePass, if_neg h1]
      exact step seen
    by_cases h2 :
      1 < (items0.filter (fun b => ¬ seen.contains b.id = true)).length
    case neg =>
      simp only [titlePass, if_pos h1, if_neg h2]
      exact step seen
    by_cases h3 :
      1 < (((items0.filter (fun b => ¬ seen.contains b.id = true)).map
        (fun b => normalizeUrl b.url)).dedup).length
    case neg =>
      simp only [titlePass, if_pos h1, if_pos h2, if_neg h3]
      exact step seen
    simp only [titlePass, if_pos h1, if_pos h2, if_pos h3]
    intro g hg
    rcases List.mem_cons.mp hg with hgmk | hgtl
    · refine ⟨items0.filter (fun b => ¬ seen.contains b.id = true), hgmk,
        ?_, h3⟩
      intro b hb
      exact ⟨(k, items0), List.mem_cons_self _ _,
        (List.mem_filter.mp hb).1⟩
    · exact step _ g hgtl

/-- Completeness of the exact-URL pass: when all bucket ids are distinct and
none is already seen, every bucket with more than one member is emitted as
an exact-URL group. -/
theorem urlPass_complete (gs : List (String × List Bookmark))
    (seen : List String)
    (hnd : (gs.flatMap (fun p => p.2.map Bookmark.id)).Nodup)
    (hdisj : ∀ i ∈ gs.flatMap (fun p => p.2.map Bookmark.id), i ∉ seen) :
    ∀ k items, (k, items) ∈ gs → 1 < items.length →
      mkExactGroup items ∈ (urlPass gs seen).2 := by
  induction gs generalizing seen with
  | nil => simp
  | cons hd tl ih =>
    obtain ⟨k0, items0⟩ := hd
    rw [List.flatMap_cons] at hnd hdisj
    have hnd' := (List.nodup_append.mp hnd)
    intro k items hmem hlen
    by_cases h1 : 1 < items0.length
    · have h2 : ¬ ((items0.map Bookmark.id).any
          (fun i => seen.contains i) = true) := by
        rw [List.any_eq_true]
        rintro ⟨i, hi, hc⟩
        exact hdisj i (List.mem_append_left _ hi) (by simpa using hc)
      simp only [urlPass, if_pos h1, if_neg h2]
      rcases List.mem_cons.mp hmem with hhd | htl
      · rw [Prod.mk.injEq] at hhd
        rw [hhd.2]
        exact List.mem_cons_self _ _
      · have hdisj' : ∀ i ∈ tl.flatMap (fun p => p.2.map Bookmark.id),
            i ∉ seen ++ items0.map Bookmark.id := by
          intro i hi hmem2
          rcases List.mem_append.mp hmem2 with hs | hitems
          · exact hdisj i (List.mem_append_right _ hi) hs
          · exact hnd'.2.2 hitems hi
        exact List.mem_cons_of_mem _
          (ih (seen ++ items0.map Bookmark.id) hnd'.2.1 hdisj' k items htl hlen)
    · simp only [urlPass, if_neg h1]
      rcases List.mem_cons.mp hmem with hhd | htl
      · rw [Prod.mk.injEq] at hhd
        exact absurd (hhd.2 ▸ hlen) h1
      · exact ih seen hnd'.2.1
          (fun i hi => hdisj i (List.mem_append_right _ hi)) k items htl hlen

/-- A list whose deduplication has more than one element contains two
distinct elements. -/
theorem exists_ne_of_one_lt_dedup {α : Type} [DecidableEq α] (l : List α)
    (h : 1 < l.dedup.length) : ∃ x ∈ l, ∃ y ∈ l, x ≠ y := by
  match hd : l.dedup with
  | [] => rw [hd] at h; simp at h
  | [a] => rw [hd] at h; simp at h
  | a :: b :: tl2 =>
    have hnd : (a :: b :: tl2).Nodup := hd ▸ l.nodup_dedup
    have hab : a ≠ b := by
      have := (List.nodup_cons.mp hnd).1
      intro hab
      exact this (hab ▸ List.mem_cons_self _ _)
    have ha : a ∈ l := List.mem_dedup.mp (hd ▸ List.mem_cons_self _ _)
    have hb : b ∈ l :=
      List.mem_dedup.mp (hd ▸ List.mem_cons_of_mem _ (List.mem_cons_self _ _))
    exact ⟨a, ha, b, hb, hab⟩

/-- The two exact-URL-duplicate scenario bookmarks, with parser-derived
ids. -/
def c2b1 : Bookmark :=
  { id := bookmarkId "http://www.example.com/page"
    title := "Example Page"
    url := "http://www.example.com/page"
    folder_path := "/Work/" }

def c2b2 : Bookmark :=
  { id := bookmarkId "https://example.com/page/"
    title := "Example Mirror"
    url := "https://example.com/page/"
    folder_path := "/" }

/-- Two bookmarks with equal normalized titles and different normalized
URLs. -/
def c4b1 : Bookmark :=
  { id := "idA", title := "Same Page - A", url := "http://a.example.com/x" }

def c4b2 : Bookmark :=
  { id := "idB", title := "Same Page | B", url := "http://b.example.com/y" }

/-- C2, counterexample: URL normalization removes a `www.` that is NOT a
leading host prefix (`en.www.example.com` becomes `en.example.com`),
contradicting "strips only a leading www. prefix, leaving any other
occurrence of www. in the host untouched". -/
theorem c2_counterexample :
    normalizeUrl "http://en.www.example.com/page" = "en.example.com/page" ∧
    normalizeUrl "http://en.www.example.com/page" ≠ "en.www.example.com/page" := by
  constructor
  · decide
  · decide

/-- C2, amended: URL normalization lower-cases the URL, removes EVERY
occurrence of `www.` from the host, and strips all trailing path slashes.
The scenario holds: detection over exactly the two bookmarks with URLs
`http://www.example.com/page` and `https://example.com/page/` returns
exactly one exact-URL group of size 2 containing both; and in general, on a
snapshot with pairwise distinct ids, every normalized-URL group with more
than one member becomes an exact-URL group. -/
theorem c2_amended :
    (detectDuplicates (.ok [(c2b1, 1), (c2b2, 1)]) =
        [mkExactGroup [c2b1, c2b2]] ∧
      (mkExactGroup [c2b1, c2b2]).similarity_type = "exact_url" ∧
      (mkExactGroup [c2b1, c2b2]).count = 2 ∧
      (mkExactGroup [c2b1, c2b2]).bookmark_ids = [c2b1.id, c2b2.id]) ∧
    (∀ snapshot : List Bookmark, (snapshot.map Bookmark.id).Nodup →
      ∀ k items,
        (k, items) ∈ buildGroups snapshot (fun b => normalizeUrl b.url) →
        1 < items.length → mkExactGroup items ∈ detectCore snapshot) := by
  refine ⟨⟨by decide, by decide, by decide, by decide⟩, ?_⟩
  intro snapshot hnd k items hmem hlen
  simp only [detectCore]
  apply List.mem_append_left
  have hnd2 : ((buildGroups snapshot (fun b => normalizeUrl b.url)).flatMap
      (fun p => p.2.map Bookmark.id)).Nodup := by
    have h1 : (buildGroups snapshot (fun b => normalizeUrl b.url)).flatMap
        (fun p => p.2.map Bookmark.id) =
        ((buildGroups snapshot (fun b => normalizeUrl b.url)).flatMap
          (·.2)).map Bookmark.id := by
      rw [List.map_flatMap]
    rw [h1]
    exact (((buildGroups_bind_perm snapshot
      (fun b => normalizeUrl b.url)).map Bookmark.id).symm).nodup hnd
  exact urlPass_complete _ [] hnd2 (by simp) k items hmem hlen

/-- C2, witness: `c2_amended` applied to the concrete two-bookmark snapshot
and its normalized-URL bucket. -/
theorem c2_amended_witness :
    mkExactGroup [c2b1, c2b2] ∈ detectCore [c2b1, c2b2] :=
  c2_amended.2 [c2b1, c2b2] (by decide) "example.com/page" [c2b1, c2b2]
    (by decide) (by decide)

/-- C3: in the output of `detect_duplicates`, for every input snapshot
(or failing snapshot query), the reported groups are pairwise id-disjoint:
once a bookmark id is assigned to a group — exact-URL groups being formed
first — it is excluded from all later groups, so no id appears in more than
one group. -/
theorem c3_no_id_in_two_groups (r : Except String (List (Bookmark × Rat))) :
    (detectDuplicates r).Pairwise idsDisjoint := by
  match r with
  | .error e => simp [detectDuplicates]
  | .ok rs =>
    by_cases h : rs = []
    · simp [detectDuplicates, h]
    · simp only [detectDuplicates, if_neg h, detectCore]
      apply List.pairwise_append.mpr
      refine ⟨(urlPass_spec _ []).2.2, (titlePass_spec _ _).2.2, ?_⟩
      intro g1 hg1 g2 hg2 i hig1 hig2
      have h1 := ((urlPass_spec _ []).2.1 g1 hg1 i hig1).1
      have h2 := ((titlePass_spec _ _).2.1 g2 hg2 i hig2).2
      exact h2 h1

/-- C4, counterexample: title normalization does NOT strip only a trailing
" - Suffix" pattern: it removes everything from the FIRST `-` or `|`
onward, so `State-of-the-art - Wikipedia` normalizes to `state`, not to
`state-of-the-art`. -/
theorem c4_counterexample :
    normalizeTitle "State-of-the-art - Wikipedia" = "state" ∧
    normalizeTitle "State-of-the-art - Wikipedia" ≠ "state-of-the-art" := by
  constructor
  · decide
  · decide

/-- C4, amended: title normalization removes everything from the first `-`
or `|` character (with any whitespace just before it) to the end, then
lower-cases and collapses whitespace; and a similar-title group is emitted
only when the member URLs, after URL normalization, are not all identical:
every emitted similar-title group contains two members from the snapshot
with distinct normalized URLs. -/
theorem c4_amended :
    (normalizeTitle "State-of-the-art - Wikipedia" = "state" ∧
     normalizeTitle "Docs | Quickstart - Intro" = "docs" ∧
     normalizeTitle "  Hello   World  " = "hello world") ∧
    (∀ (snapshot : List Bookmark) (g : DuplicateGroup),
      g ∈ detectCore snapshot → g.similarity_type = "similar_title" →
      ∃ b1 b2, b1 ∈ snapshot ∧ b2 ∈ snapshot ∧
        b1.id ∈ g.bookmark_ids ∧ b2.id ∈ g.bookmark_ids ∧
        normalizeUrl b1.url ≠ normalizeUrl b2.url) := by
  refine ⟨⟨by decide, by decide, by decide⟩, ?_⟩
  intro snapshot g hg htype
  simp only [detectCore] at hg
  rcases List.mem_append.mp hg with hurl | htitle
  · rw [urlPass_types _ _ g hurl] at htype
    exact absurd htype (by decide)
  · obtain ⟨items, hgeq, hmem, hurls⟩ := titlePass_emitted _ _ g htitle
    obtain ⟨u1, hu1, u2, hu2, hne⟩ := exists_ne_of_one_lt_dedup _ hurls
    obtain ⟨b1, hb1, hbu1⟩ := List.mem_map.mp hu1
    obtain ⟨b2, hb2, hbu2⟩ := List.mem_map.mp hu2
    have hsnap : ∀ b ∈ items, b ∈ snapshot := by
      intro b hb
      obtain ⟨p, hp, hbp⟩ := hmem b hb
      exact (List.mem_filter.mp (buildGroups_mem _ _ p hp b hbp)).1
    refine ⟨b1, b2, hsnap b1 hb1, hsnap b2 hb2, ?_, ?_, ?_⟩
    · rw [hgeq, mkSimilarGroup_ids]
      exact List.mem_map_of_mem _ hb1
    · rw [hgeq, mkSimilarGroup_ids]
      exact List.mem_map_of_mem _ hb2
    · rw [hbu1, hbu2]
      exact hne

/-- C4, witness: `c4_amended` applied to the concrete snapshot of two
bookmarks with equal normalized titles and distinct normalized URLs. -/
theorem c4_amended_witness :
    ∃ b1 b2, b1 ∈ [c4b1, c4b2] ∧ b2 ∈ [c4b1, c4b2] ∧
      b1.id ∈ (mkSimilarGroup [c4b1, c4b2]).bookmark_ids ∧
      b2.id ∈ (mkSimilarGroup [c4b1, c4b2]).bookmark_ids ∧
      normalizeUrl b1.url ≠ normalizeUrl b2.url :=
  c4_amended.2 [c4b1, c4b2] (mkSimilarGroup [c4b1, c4b2]) (by decide)
    (by decide)

/-! ### Association-list lemmas for the vector store (C8) -/

/-- First entry stored under a key. -/
def findEntry : StoreState → String → Option IndexEntry
  | [], _ => none
  | p :: rest, k => if p.1 = k then some p.2 else findEntry rest k

/-- Value of the last entry of a write sequence that targets a key. -/
def lastVal : List (String × IndexEntry) → String → Option IndexEntry
  | [], _ => none
  | e :: rest, k =>
    match lastVal rest k with
    | some v => some v
    | none => if e.1 = k then some e.2 else none

theorem any_key_iff (st : StoreState) (k : String) :
    st.any (fun p => p.1 = k) = true ↔ k ∈ st.map Prod.fst := by
  rw [List.any_eq_true]
  constructor
  · rintro ⟨p, hp, hpk⟩
    exact List.mem_map.mpr ⟨p, hp, by simpa using hpk⟩
  · intro hm
    obtain ⟨p, hp, hpk⟩ := List.mem_map.mp hm
    exact ⟨p, hp, by simpa using hpk⟩

theorem findEntry_none_of_not_mem (st : StoreState) (k : String)
    (h : k ∉ st.map Prod.fst) : findEntry st k = none := by
  induction st with
  | nil => rfl
  | cons p rest ih =>
    rw [List.map_cons] at h
    have hp : ¬ p.1 = k := fun hc => h (hc ▸ List.mem_cons_self _ _)
    simp only [findEntry, if_neg hp]
    exact ih (fun hc => h (List.mem_cons_of_mem _ hc))

theorem lastVal_none_of_not_mem (E : List (String × IndexEntry)) (k : String)
    (h : k ∉ E.map Prod.fst) : lastVal E k = none := by
  induction E with
  | nil => rfl
  | cons e rest ih =>
    rw [List.map_cons] at h
    have he : ¬ e.1 = k := fun hc => h (hc ▸ List.mem_cons_self _ _)
    have hr := ih (fun hc => h (List.mem_cons_of_mem _ hc))
    simp only [lastVal, hr, if_neg he]

/-- Upserting keeps the key list unchanged when the key exists, otherwise
appends it. -/
theorem upsert_keys (st : StoreState) (e : String × IndexEntry) :
    (upsertEntry st e).map Prod.fst =
      if st.any (fun p => p.1 = e.1) then st.map Prod.fst
      else st.map Prod.fst ++ [e.1] := by
  simp only [upsertEntry]
  split
  · rw [List.map_map]
    apply List.map_congr_left
    intro p _
    by_cases hp : p.1 = e.1
    · simp [hp]
    · simp [hp]
  · simp

theorem findEntry_upsert_self (st : StoreState) (e : String × IndexEntry) :
    findEntry (upsertEntry st e) e.1 = some e.2 := by
  simp only [upsertEntry]
  split
  case isTrue h =>
    induction st with
    | nil => simp at h
    | cons p rest ih =>
      rw [List.map_cons]
      by_cases hp : p.1 = e.1
      · simp [if_pos hp, findEntry]
      · simp only [if_neg hp, findEntry, if_neg hp]
        apply ih
        rw [List.any_cons] at h
        simpa [hp] using h
  case isFalse h =>
    induction st with
    | nil => simp [findEntry]
    | cons p rest ih =>
      rw [List.cons_append]
      have hp : ¬ p.1 = e.1 := by
        intro hc
        apply h
        rw [List.any_cons]
        simp [hc]
      simp only [findEntry, if_neg hp]
      apply ih
      intro hc
      apply h
      rw [List.any_cons]
      simp [hc]

theorem findEntry_upsert_ne (st : StoreState) (e : String × IndexEntry)
    (k : String) (hk : k ≠ e.1) :
    findEntry (upsertEntry st e) k = findEntry st k := by
  simp only [upsertEntry]
  split
  case isTrue h =>
    clear h
    induction st with
    | nil => rfl
    | cons p rest ih =>
      rw [List.map_cons]
      by_cases hp : p.1 = e.1
      · have hpk : ¬ p.1 = k := fun hc => hk (hp.symm.trans hc).symm
        have hek : ¬ e.1 = k := fun hc => hk hc.symm
        simp only [if_pos hp, findEntry, if_neg hpk, if_neg hek]
        exact ih
      · simp only [if_neg hp, findEntry]
        by_cases hpk : p.1 = k
        · simp [hpk]
        · simp only [if_neg hpk]
          exact ih
  case isFalse h =>
    clear h
    induction st with
    | nil =>
      have hek : ¬ e.1 = k := fun hc => hk hc.symm
      simp [findEntry, if_neg hek]
    | cons p rest ih =>
      rw [List.cons_append]
      simp only [findEntry]
      by_cases hpk : p.1 = k
      · simp [hpk]
      · simp only [if_neg hpk]
        exact ih

theorem keys_nodup_upsert (st : StoreState) (e : String × IndexEntry)
    (h : (st.map Prod.fst).Nodup) :
    ((upsertEntry st e).map Prod.fst).Nodup := by
  rw [upsert_keys]
  split
  case isTrue => exact h
  case isFalse hany =>
    rw [List.nodup_append]
    refine ⟨h, List.nodup_singleton _, ?_⟩
    intro x hx hxe
    rw [List.mem_singleton] at hxe
    subst hxe
    exact hany ((any_key_iff st e.1).mpr hx)

theorem keys_nodup_foldl (E : List (String × IndexEntry)) :
    ∀ st : StoreState, (st.map Prod.fst).Nodup →
      ((E.foldl upsertEntry st).map Prod.fst).Nodup := by
  induction E with
  | nil => intro st h; exact h
  | cons e rest ih =>
    intro st h
    rw [List.foldl_cons]
    exact ih _ (keys_nodup_upsert st e h)

theorem mem_keys_upsert_left (st : StoreState) (e : String × IndexEntry)
    (k : String) (h : k ∈ st.map Prod.fst) :
    k ∈ (upsertEntry st e).map Prod.fst := by
  rw [upsert_keys]
  split
  · exact h
  · exact List.mem_append_left _ h

theorem mem_keys_upsert_self (st : StoreState) (e : String × IndexEntry) :
    e.1 ∈ (upsertEntry st e).map Prod.fst := by
  rw [upsert_keys]
  split
  case isTrue h => exact (any_key_iff st e.1).mp h
  case isFalse => exact List.mem_append_right _ (List.mem_singleton.mpr rfl)

theorem mem_keys_foldl (E : List (String × IndexEntry)) :
    ∀ (st : StoreState) (k : String),
      (k ∈ st.map Prod.fst ∨ k ∈ E.map Prod.fst) →
      k ∈ (E.foldl upsertEntry st).map Prod.fst := by
  induction E with
  | nil =>
    intro st k h
    rcases h with h | h
    · exact h
    · simp at h
  | cons e rest ih =>
    intro st k h
    rw [List.foldl_cons]
    apply ih
    rcases h with h | h
    · exact Or.inl (mem_keys_upsert_left st e k h)
    · rw [List.map_cons] at h
      rcases List.mem_cons.mp h with h | h
      · exact Or.inl (h ▸ mem_keys_upsert_self st e)
      · exact Or.inr h

/-- Looking up a key after replaying a write sequence yields the last write
to that key, or the prior value when the sequence never writes it. -/
theorem findEntry_foldl (E : List (String × IndexEntry)) :
    ∀ (st : StoreState) (k : String),
      findEntry (E.foldl upsertEntry st) k =
        match lastVal E k with
        | some v => some v
        | none => findEntry st k := by
  induction E with
  | nil => intro st k; rfl
  | cons e rest ih =>
    intro st k
    rw [List.foldl_cons, ih]
    simp only [lastVal]
    match h : lastVal rest k with
    | some v => rfl
    | none =>
      by_cases hke : e.1 = k
      · subst hke
        simp only [if_pos rfl]
        exact findEntry_upsert_self st e
      · have hk : k ≠ e.1 := fun hc => hke hc.symm
        simp only [if_neg hke]
        exact findEntry_upsert_ne st e k hk

/-- Association lists with the same key order, no duplicate keys and the
same lookups are equal. -/
theorem store_ext : ∀ (t t' : StoreState),
    t.map Prod.fst = t'.map Prod.fst → (t.map Prod.fst).Nodup →
    (∀ k, findEntry t k = findEntry t' k) → t = t' := by
  intro t
  induction t with
  | nil =>
    intro t' hk _ _
    exact (List.map_eq_nil_iff.mp hk.symm).symm
  | cons p rest ih =>
    intro t' hk hnd hfind
    match t' with
    | [] => exact absurd hk (by simp)
    | p' :: rest' =>
      rw [List.map_cons, List.map_cons] at hk
      have hk1 : p.1 = p'.1 := (List.cons.injEq _ _ _ _ ▸ hk).1
      have hk2 : rest.map Prod.fst = rest'.map Prod.fst :=
        (List.cons.injEq _ _ _ _ ▸ hk).2
      have hv : p.2 = p'.2 := by
        have h := hfind p.1
        simp only [findEntry, if_pos rfl] at h
        rw [← hk1] at h
        simp only [if_pos rfl] at h
        exact Option.some.inj h.symm |>.symm
      have hmem : p.1 ∉ rest.map Prod.fst := by
        rw [List.map_cons] at hnd
        exact (List.nodup_cons.mp hnd).1
      have hrest : rest = rest' := by
        apply ih rest' hk2
        · rw [List.map_cons] at hnd
          exact (List.nodup_cons.mp hnd).2
        · intro k
          by_cases hkp : k = p.1
          · rw [hkp, findEntry_none_of_not_mem rest p.1 hmem,
              findEntry_none_of_not_mem rest' p.1 (hk2 ▸ hmem)]
          · have h := hfind k
            have hp : ¬ p.1 = k := fun hc => hkp hc.symm
            have hp' : ¬ p'.1 = k := fun hc => hkp (hk1 ▸ hc).symm
            simpa only [findEntry, if_neg hp, if_neg hp'] using h
      have hpair : p = p' := Prod.ext hk1 hv
      rw [hpair, hrest]

/-- Replaying a write sequence over a state that already holds the final
value of every written key, without disturbing other keys, reproduces the
state exactly. -/
theorem replay_foldl (E : List (String × IndexEntry)) :
    ∀ (T T' : StoreState),
      T'.map Prod.fst = T.map Prod.fst →
      (T.map Prod.fst).Nodup →
      (∀ e ∈ E, e.1 ∈ T.map Prod.fst) →
      (∀ k v, lastVal E k = some v → findEntry T k = some v) →
      (∀ k, k ∉ E.map Prod.fst → findEntry T' k = findEntry T k) →
      E.foldl upsertEntry T' = T := by
  induction E with
  | nil =>
    intro T T' hkeys hnd _ _ hout
    exact store_ext T' T hkeys (hkeys ▸ hnd) (fun k => hout k (by simp))
  | cons e E' ih =>
    intro T T' hkeys hnd hmemE hfin hout
    rw [List.foldl_cons]
    have heT : e.1 ∈ T'.map Prod.fst :=
      hkeys ▸ hmemE e (List.mem_cons_self _ _)
    apply ih T (upsertEntry T' e)
    · rw [upsert_keys, if_pos ((any_key_iff T' e.1).mpr heT)]
      exact hkeys
    · exact hnd
    · exact fun e' he' => hmemE e' (List.mem_cons_of_mem _ he')
    · intro k v h
      apply hfin k v
      simp only [lastVal, h]
    · intro k hkE'
      by_cases hke1 : k = e.1
      · rw [hke1, findEntry_upsert_self T' e]
        have hkE : e.1 ∉ E'.map Prod.fst := hke1 ▸ hkE'
        have hlast : lastVal (e :: E') e.1 = some e.2 := by
          simp [lastVal, lastVal_none_of_not_mem E' e.1 hkE]
        exact (hfin e.1 e.2 hlast).symm
      · rw [findEntry_upsert_ne T' e k hke1]
        refine hout k ?_
        rw [List.map_cons]
        intro hc
        rcases List.mem_cons.mp hc with h1 | h2
        · exact hke1 h1
        · exact hkE' h2

/-- C8: upserting the same bookmark set twice without `replace` leaves the
index state — and hence `count()` — exactly as after the first upsert:
entries are keyed and overwritten by id, so a replay changes nothing. -/
theorem c8_upsert_idempotent (st : StoreState) (S : List Bookmark)
    (hnd : (st.map Prod.fst).Nodup) :
    (addBookmarks (addBookmarks st S false).1 S false).1 =
      (addBookmarks st S false).1 ∧
    getCount (addBookmarks (addBookmarks st S false).1 S false).1 =
      getCount (addBookmarks st S false).1 := by
  have hmain :
      (addBookmarks (addBookmarks st S false).1 S false).1 =
        (addBookmarks st S false).1 := by
    show ((S.filter (fun b => b.id ≠ "")).map mkEntry).foldl upsertEntry
        (((S.filter (fun b => b.id ≠ "")).map mkEntry).foldl upsertEntry st) =
      ((S.filter (fun b => b.id ≠ "")).map mkEntry).foldl upsertEntry st
    apply replay_foldl _ _ _ rfl
    · exact keys_nodup_foldl _ st hnd
    · intro e he
      exact mem_keys_foldl _ st e.1
        (Or.inr (List.mem_map.mpr ⟨e, he, rfl⟩))
    · intro k v h
      rw [findEntry_foldl, h]
    · intro k _
      rfl
  exact ⟨hmain, by rw [hmain]⟩

/-- C8, witness: `c8_upsert_idempotent` applied to the empty store and a
one-bookmark set. -/
theorem c8_upsert_idempotent_witness :
    (addBookmarks (addBookmarks [] [bkA "/Work/"] false).1
        [bkA "/Work/"] false).1 =
      (addBookmarks [] [bkA "/Work/"] false).1 ∧
    getCount (addBookmarks (addBookmarks [] [bkA "/Work/"] false).1
        [bkA "/Work/"] false).1 =
      getCount (addBookmarks [] [bkA "/Work/"] false).1 :=
  c8_upsert_idempotent [] [bkA "/Work/"] (by decide)

/-- C9: when the underlying embedding-store query raises, `search` returns
the empty list rather than propagating, and when the snapshot query behind
duplicate detection raises, `detect_duplicates` likewise returns the empty
list. -/
theorem c9_degrade_gracefully :
    (∀ e, vsSearch (.error e) = []) ∧
    (∀ e, detectDuplicates (.error e) = []) :=
  ⟨fun _ => rfl, fun _ => rfl⟩

/-- C10: with no retrieval results, the context block handed to the
generation capability is the explicit no-results marker (not an empty
string), the user message embeds that marker, and the returned source list
is empty. -/
theorem c10_no_results_marker :
    buildContext [] = "没有找到相关书签。" ∧
    "没有找到相关书签。" ≠ "" ∧
    (∀ message, chatMessages [] message =
      [("system", ragSystemPrompt),
       ("user", "参考书签信息：\n没有找到相关书签。\n\n用户问题：" ++ message)]) ∧
    (∀ inc t, chatResult [] inc (.ok t) = .ok (t, [])) := by
  refine ⟨rfl, by decide, fun message => rfl, fun inc t => ?_⟩
  cases inc <;> rfl

end SmartFav
